import Mathlib

/-!
# A verification development for the acolyte-scheduling application

The application stores three PostgreSQL relations (created in
`criar_tabelas`):

* `missas (id SERIAL PRIMARY KEY, data VARCHAR(10), hora VARCHAR(5),
  descricao TEXT, vagas_totais INTEGER)` — the events;
* `inscricoes (id SERIAL, missa_id INTEGER, nome_acolito VARCHAR(255),
  FOREIGN KEY missa_id, UNIQUE (missa_id, nome_acolito))` — the
  enrollments;
* `acolitos (nome TEXT PRIMARY KEY)` — the volunteers.

We embed the database as a Lean structure: each relation is a list in
stored (insertion) order, which is the order a PostgreSQL sequential scan
returns rows in when a query has no `ORDER BY`.  `SERIAL` id generation is
an explicit `next_id` counter starting at 1.  Each data-access function of
`app.py` becomes a pure function from the state (and its arguments) to its
return value and the new state; the happy path of each `try`/`except` block
is the function body, and an `IntegrityError` branch becomes the
corresponding decidable test against the state, since the only integrity
constraints are the primary key of `acolitos` and the `UNIQUE` pair of
`inscricoes`.

Date/time handling: `obter_ranking` (and the UI filters) parse
`f"{data} {hora}"` with `datetime.strptime(..., "%Y-%m-%d %H:%M")`,
localize the result in the fixed zone `America/Sao_Paulo`, and compare it
(+6 hours) against `datetime.now` in the same zone.  Both sides of every
comparison carry the same fixed zone, so we embed an instant as its
wall-clock minute count in that zone (proleptic Gregorian, minutes since
0001-01-01 00:00), and `datetime.now` becomes an explicit `agora`
parameter.  The parser below reproduces `strptime`'s acceptance for this
format: a 4-digit year, 1- or 2-digit month/day/hour/minute fields with
the literal separators, nothing left over, and the `datetime` constructor's
calendar validation (month 1..12, day bounded by the month length, hour
0..23, minute 0..59).
-/

namespace Acolitos

/-- One row of the `missas` relation. -/
structure Missa where
  id : Nat
  data : String
  hora : String
  descricao : String
  vagas_totais : Int
deriving DecidableEq

/-- The database state: the three relations in stored order, plus the
`SERIAL` counter for `missas.id` (PostgreSQL sequences start at 1). -/
structure DB where
  next_id : Nat
  missas : List Missa
  inscricoes : List (Nat × String)
  acolitos : List String
deriving DecidableEq

/-- The state right after `criar_tabelas` on a fresh database. -/
def DB.empty : DB := ⟨1, [], [], []⟩

/-- Row lookup `WHERE m.id = %s` (ids are unique in reachable states). -/
def findMissa (db : DB) (mid : Nat) : Option Missa :=
  db.missas.find? (fun m => m.id == mid)

/-- The `COUNT(i.id)` of the `LEFT JOIN` used by `inscrever_acolito`,
`listar_missas_futuras` and `listar_todas_missas`: how many enrollments
reference the event. -/
def vagasPreenchidas (db : DB) (mid : Nat) : Nat :=
  (db.inscricoes.filter (fun p => p.1 == mid)).length

/-- Embeds `verificar_inscricao`: `SELECT COUNT(*) ... WHERE missa_id = %s
AND nome_acolito = %s` compared with 0. -/
def verificar_inscricao (db : DB) (mid : Nat) (nome : String) : Bool :=
  decide ((mid, nome) ∈ db.inscricoes)

/-- Embeds `inscrever_acolito`: fetch the event row with its filled count
(no row means the event does not exist), refuse when the count has reached
`vagas_totais`, refuse when the pair is already enrolled, otherwise insert
the pair and commit.  The `IntegrityError` branch (UNIQUE race) cannot fire
sequentially because the membership test precedes the insert. -/
def inscrever_acolito (db : DB) (mid : Nat) (nome : String) : Bool × DB :=
  match findMissa db mid with
  | none => (false, db)
  | some m =>
    if m.vagas_totais ≤ (vagasPreenchidas db mid : Int) then (false, db)
    else if verificar_inscricao db mid nome then (false, db)
    else (true, { db with inscricoes := db.inscricoes ++ [(mid, nome)] })

/-- Embeds `desinscrever_acolito`: `DELETE ... WHERE missa_id = %s AND
nome_acolito = %s`, reporting whether the rowcount was positive. -/
def desinscrever_acolito (db : DB) (mid : Nat) (nome : String) : Bool × DB :=
  let rest := db.inscricoes.filter (fun p => !(p.1 == mid && p.2 == nome))
  (decide (rest.length < db.inscricoes.length), { db with inscricoes := rest })

/-- Embeds `remover_inscricao_admin`, whose body is the same `DELETE` as
`desinscrever_acolito`. -/
def remover_inscricao_admin (db : DB) (mid : Nat) (nome : String) : Bool × DB :=
  let rest := db.inscricoes.filter (fun p => !(p.1 == mid && p.2 == nome))
  (decide (rest.length < db.inscricoes.length), { db with inscricoes := rest })

/-- Embeds `cadastrar_missa`: an unconditional `INSERT INTO missas` —
the function validates nothing, in particular not `vagas_totais`. -/
def cadastrar_missa (db : DB) (data hora descricao : String) (vagas_totais : Int) :
    Bool × DB :=
  (true, { db with
             missas := db.missas ++ [⟨db.next_id, data, hora, descricao, vagas_totais⟩],
             next_id := db.next_id + 1 })

/-- Embeds `excluir_missa`: one transaction deleting the enrollments of the
event and then the event itself, committed together. -/
def excluir_missa (db : DB) (mid : Nat) : Bool × DB :=
  (true, { db with
             missas := db.missas.filter (fun m => !(m.id == mid)),
             inscricoes := db.inscricoes.filter (fun p => !(p.1 == mid)) })

/-- Models Python `str.strip()`: drop leading and trailing whitespace
characters (the ASCII whitespace that occurs in names; Python also strips
rarer Unicode space characters). -/
def pystrip (s : String) : String :=
  ⟨((s.data.dropWhile Char.isWhitespace).reverse.dropWhile Char.isWhitespace).reverse⟩

/-- Embeds `cadastrar_acolito`: `INSERT INTO acolitos (nome) VALUES
(nome.strip())`; the `IntegrityError` branch (primary-key conflict) returns
`False`, so the insert happens exactly when the stripped name is new. -/
def cadastrar_acolito (db : DB) (nome : String) : Bool × DB :=
  if pystrip nome ∈ db.acolitos then (false, db)
  else (true, { db with acolitos := db.acolitos ++ [pystrip nome] })

/-- Embeds `remover_acolito`: `DELETE FROM acolitos WHERE nome = %s`,
reporting whether the rowcount was positive. -/
def remover_acolito (db : DB) (nome : String) : Bool × DB :=
  let rest := db.acolitos.filter (fun n => !(n == nome))
  (decide (rest.length < db.acolitos.length), { db with acolitos := rest })

/-!
## Sorting

SQL `ORDER BY` and Python `sorted` both order rows by a key; Python's sort
is specified to be stable, and stable sorts agree extensionally, so one
insertion sort parameterized by the comparison serves for every occurrence.
`insertBy keep x acc` walks the already-sorted `acc` and places `x` after
every `y` with `keep y x` (`y` may stay before `x`), which keeps earlier
elements first on ties — exactly Python's `sorted`. -/

/-- Insert `x` into `acc`, keeping every `y` with `keep y x` before it. -/
def insertBy (keep : α → α → Bool) (x : α) : List α → List α
  | [] => [x]
  | y :: ys => if keep y x then y :: insertBy keep x ys else x :: y :: ys

/-- Stable sort: fold the input left to right into a sorted accumulator. -/
def sortBy (keep : α → α → Bool) (l : List α) : List α :=
  l.foldl (fun acc x => insertBy keep x acc) []

/-- Comparison of `ORDER BY nome_acolito` (ascending string order). -/
def keepNomeAsc (a b : String) : Bool := decide (a ≤ b)

/-- Comparison of `ORDER BY m.data DESC, m.hora DESC`: `a` may stay before
`b` when `a`'s (date, time) key is lexicographically at least `b`'s. -/
def keepDataHoraDesc (a b : Missa) : Bool :=
  decide (b.data < a.data ∨ (b.data = a.data ∧ b.hora ≤ a.hora))

/-- Comparison of `sorted(pontuacao.items(), key=lambda x: x[1],
reverse=True)`: descending by point count, stable on ties. -/
def keepPontosDesc (a b : String × Nat) : Bool := decide (b.2 ≤ a.2)

/-- Embeds `listar_inscritos`: the names enrolled in the event,
`ORDER BY nome_acolito`. -/
def listar_inscritos (db : DB) (mid : Nat) : List String :=
  sortBy keepNomeAsc ((db.inscricoes.filter (fun p => p.1 == mid)).map Prod.snd)

/-- Embeds `listar_acolitos`: every volunteer name, `ORDER BY nome`. -/
def listar_acolitos (db : DB) : List String := sortBy keepNomeAsc db.acolitos

/-- Embeds `listar_todas_missas`: every event row paired with its
`COUNT(i.id)` filled count, `ORDER BY m.data DESC, m.hora DESC`.  The query
returns no enrolled-names column. -/
def listar_todas_missas (db : DB) : List (Missa × Nat) :=
  (sortBy keepDataHoraDesc db.missas).map (fun m => (m, vagasPreenchidas db m.id))

/-!
## Date/time parsing and the scoring engine
-/

/-- Numeric value of a digit list (the lists below have length 1, 2 or 4). -/
def natOfDigits (ds : List Char) : Nat :=
  ds.foldl (fun n c => 10 * n + (c.toNat - 48)) 0

/-- Take a 1- or 2-digit prefix, greedily, as `strptime` does for the
`%m`, `%d`, `%H` and `%M` fields of this format (the field is followed by a
non-digit separator or the end of the string, so greedy matching and the
regex alternation agree). -/
def take2 : List Char → List Char × List Char
  | [] => ([], [])
  | [c] => if c.isDigit then ([c], []) else ([], [c])
  | c1 :: c2 :: rest =>
    if c1.isDigit then
      if c2.isDigit then ([c1, c2], rest) else ([c1], c2 :: rest)
    else ([], c1 :: c2 :: rest)

/-- Whether a (proleptic Gregorian) year is a leap year. -/
def isLeap (y : Nat) : Bool := (y % 4 == 0 && y % 100 != 0) || y % 400 == 0

/-- Length of a month, as `datetime` validates the day against it. -/
def daysInMonth (y m : Nat) : Nat :=
  if m = 2 then (if isLeap y then 29 else 28)
  else if m = 4 ∨ m = 6 ∨ m = 9 ∨ m = 11 then 30
  else 31

/-- Parse the `%Y-%m-%d` part of the format: a 4-digit year, then each
numeric field and separator in turn, with nothing left over, and the
`datetime` constructor's range checks. -/
def parseData (cs : List Char) : Option (Nat × Nat × Nat) :=
  match cs with
  | y1 :: y2 :: y3 :: y4 :: '-' :: rest1 =>
    if y1.isDigit && y2.isDigit && y3.isDigit && y4.isDigit then
      let y := natOfDigits [y1, y2, y3, y4]
      match take2 rest1 with
      | (mds, '-' :: rest2) =>
        if mds.isEmpty then none
        else
          let mo := natOfDigits mds
          match take2 rest2 with
          | (dds, []) =>
            if dds.isEmpty then none
            else
              let d := natOfDigits dds
              if 1 ≤ y ∧ 1 ≤ mo ∧ mo ≤ 12 ∧ 1 ≤ d ∧ d ≤ daysInMonth y mo then
                some (y, mo, d)
              else none
          | _ => none
      | _ => none
    else none
  | _ => none

/-- Parse the `%H:%M` part of the format, with the `datetime` range checks. -/
def parseHora (cs : List Char) : Option (Nat × Nat) :=
  match take2 cs with
  | (hds, ':' :: rest1) =>
    if hds.isEmpty then none
    else
      let h := natOfDigits hds
      match take2 rest1 with
      | (mds, []) =>
        if mds.isEmpty then none
        else
          let mi := natOfDigits mds
          if h ≤ 23 ∧ mi ≤ 59 then some (h, mi) else none
      | _ => none
  | _ => none

/-- Days before January 1 of year `y`, proleptic Gregorian, counted from
0001-01-01. -/
def daysBeforeYear (y : Nat) : Nat :=
  365 * (y - 1) + (y - 1) / 4 - (y - 1) / 100 + (y - 1) / 400

/-- Days of year `y` that precede month `mo`. -/
def daysBeforeMonth (y mo : Nat) : Nat :=
  (List.range (mo - 1)).foldl (fun acc i => acc + daysInMonth y (i + 1)) 0

/-- The wall-clock minute count of a date-time in the reference zone. -/
def minutesOf (y mo d h mi : Nat) : Nat :=
  ((daysBeforeYear y + daysBeforeMonth y mo + (d - 1)) * 24 + h) * 60 + mi

/-- Embeds `datetime.strptime(f"{data_str} {hora_str}", "%Y-%m-%d %H:%M")`
followed by `fuso.localize`: the instant of the event in the fixed
reference zone, or `none` when parsing raises.  Parsing the two fields
separately agrees with parsing the concatenation because the time part of
the format cannot match across the inserted space. -/
def parseDateTime (data hora : String) : Option Nat :=
  match parseData data.toList, parseHora hora.toList with
  | some (y, mo, d), some (h, mi) => some (minutesOf y mo d h mi)
  | _, _ => none

/-- The scoring test of `obter_ranking`: the row earns a point when the
event instant parses and `agora > (dt_missa + timedelta(hours=6))`; a
parse failure is swallowed by the bare `except: continue`. -/
def pontua (data hora : String) (agora : Nat) : Bool :=
  match parseDateTime data hora with
  | some t => decide (t + 360 < agora)
  | none => false

/-- The rows of `SELECT i.nome_acolito, m.data, m.hora FROM inscricoes i
JOIN missas m ON i.missa_id = m.id` (no `ORDER BY`: stored order of
`inscricoes`). -/
def scanRows (db : DB) : List (String × String × String) :=
  db.inscricoes.filterMap (fun p => (findMissa db p.1).map (fun m => (p.2, m.data, m.hora)))

/-- The names of the scanned rows that score a point at `agora`, in scan
order (each occurrence is one completed enrollment). -/
def completedNames (db : DB) (agora : Nat) : List String :=
  (scanRows db).filterMap (fun r => if pontua r.2.1 r.2.2 agora then some r.1 else none)

/-- One `pontuacao[nome] = pontuacao.get(nome, 0) + 1` step on the tally:
a Python dict keeps keys in first-insertion order, so the tally is an
association list that appends a new name and bumps an existing one in
place. -/
def bump (acc : List (String × Nat)) (nome : String) : List (String × Nat) :=
  if acc.any (fun q => q.1 == nome) then
    acc.map (fun q => if q.1 == nome then (q.1, q.2 + 1) else q)
  else acc ++ [(nome, 1)]

/-- Embeds `obter_ranking`: scan the join, tally a point per row whose
event instant parses and lies more than 6 hours before `agora`, then sort
by points descending (`sorted(..., key=lambda x: x[1], reverse=True)`,
stable). -/
def obter_ranking (db : DB) (agora : Nat) : List (String × Nat) :=
  let dados := scanRows db
  let pontuacao := dados.foldl
    (fun acc r => if pontua r.2.1 r.2.2 agora then bump acc r.1 else acc) []
  sortBy keepPontosDesc pontuacao

/-!
## Operation sequences

The mutating entry points the application exposes, as one inductive type,
so that "after any sequence of operations" can be stated as reachability
from the fresh database. -/

/-- One call to a mutating data-access function. -/
inductive Op where
  | cadastrarMissa (data hora descricao : String) (vagas_totais : Int)
  | inscrever (mid : Nat) (nome : String)
  | desinscrever (mid : Nat) (nome : String)
  | removerInscricao (mid : Nat) (nome : String)
  | excluirMissa (mid : Nat)
  | cadastrarAcolito (nome : String)
  | removerAcolito (nome : String)

/-- The state after one operation (the returned flag is dropped). -/
def applyOp (db : DB) : Op → DB
  | .cadastrarMissa d h ds v => (cadastrar_missa db d h ds v).2
  | .inscrever mid nome => (inscrever_acolito db mid nome).2
  | .desinscrever mid nome => (desinscrever_acolito db mid nome).2
  | .removerInscricao mid nome => (remover_inscricao_admin db mid nome).2
  | .excluirMissa mid => (excluir_missa db mid).2
  | .cadastrarAcolito nome => (cadastrar_acolito db nome).2
  | .removerAcolito nome => (remover_acolito db nome).2

/-- The state a sequence of operations produces from the fresh database. -/
def runOps (ops : List Op) : DB := ops.foldl applyOp DB.empty

/-- The inductive invariant of reachable states: event ids are unique and
below the `SERIAL` counter, every enrollment references an existing event
(the `FOREIGN KEY`), and no event holds more than `max vagas_totais 0`
enrollments. -/
def DBInv (db : DB) : Prop :=
  (db.missas.map Missa.id).Nodup ∧
  (∀ m ∈ db.missas, m.id < db.next_id) ∧
  (∀ p ∈ db.inscricoes, ∃ m ∈ db.missas, m.id = p.1) ∧
  (∀ m ∈ db.missas, (vagasPreenchidas db m.id : Int) ≤ max m.vagas_totais 0)

/-- The invariant the tally fold keeps: after the names of `pre` have been
folded in, the association list holds each seen name once, in order of
first occurrence, with its occurrence count. -/
def TallyInv (pre : List String) (acc : List (String × Nat)) : Prop :=
  (∀ q ∈ acc, q.2 = pre.count q.1 ∧ 0 < q.2) ∧
  (∀ n : String, n ∈ acc.map Prod.fst ↔ n ∈ pre) ∧
  (acc.map Prod.fst).Nodup ∧
  acc.Pairwise (fun a b => pre.indexOf a.1 < pre.indexOf b.1)

/-- Comparison ordering enrollment rows by event id, ascending. -/
def keepMissaIdAsc (a b : Nat × String) : Bool := decide (a.1 ≤ b.1)

/-- Follows the spec's words, not the code: the leaderboard computed over
an enrollment scan that is "itself ordered by event id".  The code's query
has no `ORDER BY`, so the two are compared below. -/
def ranking_spec_eventIdScan (db : DB) (agora : Nat) : List (String × Nat) :=
  obter_ranking { db with inscricoes := sortBy keepMissaIdAsc db.inscricoes } agora

/-!
## Concrete states for counterexamples and witnesses
-/

/-- Two completed events; the enrollment rows are stored in the order
event 2 first, event 1 second. -/
def exDB4 : DB :=
  ⟨3, [⟨1, "2024-01-01", "10:00", "", 2⟩, ⟨2, "2024-01-02", "10:00", "", 2⟩],
   [(2, "A"), (1, "B")], []⟩

/-- One event with one enrollment by Ana. -/
def exDB5a : DB := ⟨2, [⟨1, "2024-01-01", "10:00", "", 3⟩], [(1, "Ana")], []⟩

/-- The same event with one enrollment by Bia instead. -/
def exDB5b : DB := ⟨2, [⟨1, "2024-01-01", "10:00", "", 3⟩], [(1, "Bia")], []⟩

/-- One event with two free seats and nobody enrolled. -/
def exDB7 : DB := ⟨2, [⟨1, "2024-01-01", "10:00", "", 2⟩], [], []⟩

/-- An event whose stored date does not parse, next to a well-formed one,
with enrollments on both. -/
def exDB9 : DB :=
  ⟨3, [⟨1, "baddate", "10:00", "", 5⟩, ⟨2, "2024-01-01", "10:00", "", 5⟩],
   [(1, "Ana"), (2, "Ana"), (2, "Bia")], []⟩

/-!
## Lemmas about the stable sort
-/

theorem insertBy_perm (keep : α → α → Bool) (x : α) (l : List α) :
    (insertBy keep x l).Perm (x :: l) := by
  induction l with
  | nil => exact List.Perm.refl _
  | cons y ys ih =>
    unfold insertBy
    split
    · exact (ih.cons y).trans (List.Perm.swap x y ys)
    · exact List.Perm.refl _

theorem mem_insertBy {keep : α → α → Bool} {x z : α} {l : List α}
    (h : z ∈ insertBy keep x l) : z = x ∨ z ∈ l := by
  have := (insertBy_perm keep x l).mem_iff.mp h
  simpa using this

theorem foldl_insertBy_perm (keep : α → α → Bool) :
    ∀ (l acc : List α), (l.foldl (fun a x => insertBy keep x a) acc).Perm (acc ++ l)
  | [], acc => by simp
  | x :: l, acc => by
    have ih := foldl_insertBy_perm keep l (insertBy keep x acc)
    have h1 : (insertBy keep x acc ++ l).Perm ((x :: acc) ++ l) :=
      (insertBy_perm keep x acc).append_right l
    have h2 : (acc ++ x :: l).Perm (x :: (acc ++ l)) := List.perm_middle
    exact ((ih.trans h1).trans (List.Perm.refl _)).trans h2.symm

theorem sortBy_perm (keep : α → α → Bool) (l : List α) : (sortBy keep l).Perm l := by
  have := foldl_insertBy_perm keep l []
  simpa [sortBy] using this

theorem insertBy_pairwise {keep : α → α → Bool} {R : α → α → Prop}
    (htot : ∀ a b, keep a b = true ∨ keep b a = true)
    (htrans : ∀ a b c, keep a b = true → keep b c = true → keep a c = true)
    {x : α} {l : List α}
    (hl : l.Pairwise (fun a b => keep a b = true ∧ (keep b a = true → R a b)))
    (hR : ∀ y ∈ l, R y x) :
    (insertBy keep x l).Pairwise
      (fun a b => keep a b = true ∧ (keep b a = true → R a b)) := by
  induction l with
  | nil => simp [insertBy]
  | cons y ys ih =>
    rw [List.pairwise_cons] at hl
    obtain ⟨hy, hys⟩ := hl
    unfold insertBy
    split
    case isTrue h =>
      rw [List.pairwise_cons]
      refine ⟨?_, ih hys (fun z hz => hR z (List.mem_cons_of_mem y hz))⟩
      intro z hz
      rcases mem_insertBy hz with rfl | hz2
      · exact ⟨h, fun _ => hR y (List.mem_cons_self y ys)⟩
      · exact hy z hz2
    case isFalse h =>
      rw [List.pairwise_cons]
      refine ⟨?_, List.pairwise_cons.mpr ⟨hy, hys⟩⟩
      intro z hz
      have hxy : keep x y = true := (htot y x).resolve_left h
      rcases List.mem_cons.mp hz with rfl | hz2
      · exact ⟨hxy, fun hyx => absurd hyx h⟩
      · have hyz : keep y z = true := (hy z hz2).1
        refine ⟨htrans x y z hxy hyz, fun hzx => ?_⟩
        exact absurd (htrans y z x hyz hzx) h

theorem foldl_insertBy_pairwise {keep : α → α → Bool} {R : α → α → Prop}
    (htot : ∀ a b, keep a b = true ∨ keep b a = true)
    (htrans : ∀ a b c, keep a b = true → keep b c = true → keep a c = true) :
    ∀ (l acc : List α),
      acc.Pairwise (fun a b => keep a b = true ∧ (keep b a = true → R a b)) →
      (∀ y ∈ acc, ∀ x ∈ l, R y x) → l.Pairwise R →
      (l.foldl (fun a x => insertBy keep x a) acc).Pairwise
        (fun a b => keep a b = true ∧ (keep b a = true → R a b))
  | [], acc, hacc, _, _ => hacc
  | x :: l, acc, hacc, hcross, hl => by
    rw [List.pairwise_cons] at hl
    refine foldl_insertBy_pairwise htot htrans l (insertBy keep x acc) ?_ ?_ hl.2
    · exact insertBy_pairwise htot htrans hacc
        (fun y hy => hcross y hy x (List.mem_cons_self x l))
    · intro y hy z hz
      rcases mem_insertBy hy with rfl | hy2
      · exact hl.1 z hz
      · exact hcross y hy2 z (List.mem_cons_of_mem x hz)

theorem sortBy_pairwise {keep : α → α → Bool} {R : α → α → Prop}
    (htot : ∀ a b, keep a b = true ∨ keep b a = true)
    (htrans : ∀ a b c, keep a b = true → keep b c = true → keep a c = true)
    {l : List α} (hl : l.Pairwise R) :
    (sortBy keep l).Pairwise
      (fun a b => keep a b = true ∧ (keep b a = true → R a b)) :=
  foldl_insertBy_pairwise htot htrans l [] (List.Pairwise.nil) (by simp) hl

theorem sortBy_sorted {keep : α → α → Bool}
    (htot : ∀ a b, keep a b = true ∨ keep b a = true)
    (htrans : ∀ a b c, keep a b = true → keep b c = true → keep a c = true)
    (l : List α) : (sortBy keep l).Pairwise (fun a b => keep a b = true) := by
  have h : l.Pairwise (fun _ _ : α => True) := by
    induction l with
    | nil => exact List.Pairwise.nil
    | cons x xs ih => exact List.pairwise_cons.mpr ⟨fun _ _ => trivial, ih⟩
  exact (sortBy_pairwise htot htrans h).imp (fun h => h.1)

/-!
## The claims
-/

/-- C2.  For every event with a well-formed date and time, the scoring test
of `obter_ranking` holds exactly when `agora` lies strictly more than 6
hours (360 minutes) after the event instant in the reference zone; at the
concrete event 2024-01-01 10:00, the test is false at 2024-01-01 15:59 and
true at 2024-01-01 16:01. -/
theorem scoring_completion_boundary :
    (∀ (data hora : String) (t : Nat), parseDateTime data hora = some t →
      ∀ agora : Nat, (pontua data hora agora = true ↔ t + 360 < agora)) ∧
    parseDateTime "2024-01-01" "10:00" = some (minutesOf 2024 1 1 10 0) ∧
    pontua "2024-01-01" "10:00" (minutesOf 2024 1 1 15 59) = false ∧
    pontua "2024-01-01" "10:00" (minutesOf 2024 1 1 16 1) = true := by
  refine ⟨?_, by decide, by decide, by decide⟩
  intro data hora t h agora
  simp [pontua, h]

/-- C3 (amended).  `cadastrar_missa` performs no capacity validation: even
for capacity below 1 it reports success and the event is inserted. -/
theorem cadastrar_missa_accepts_low_capacity
    (db : DB) (data hora descricao : String) (vagas : Int) (_h : vagas < 1) :
    (cadastrar_missa db data hora descricao vagas).1 = true ∧
    (⟨db.next_id, data, hora, descricao, vagas⟩ : Missa) ∈
      (cadastrar_missa db data hora descricao vagas).2.missas := by
  refine ⟨rfl, ?_⟩
  simp [cadastrar_missa]

theorem cadastrar_missa_accepts_low_capacity_witness :
    (cadastrar_missa DB.empty "2024-01-01" "19:00" "x" (-2)).1 = true ∧
    (⟨1, "2024-01-01", "19:00", "x", (-2)⟩ : Missa) ∈
      (cadastrar_missa DB.empty "2024-01-01" "19:00" "x" (-2)).2.missas :=
  cadastrar_missa_accepts_low_capacity DB.empty "2024-01-01" "19:00" "x" (-2)
    (by decide)

/-- C3, the claim as stated, is false: with capacity 0 the create call
reports success and the event is created, rather than failing with an
invalid-capacity error and creating nothing. -/
theorem cadastrar_missa_capacity_zero_succeeds :
    cadastrar_missa DB.empty "2024-01-01" "19:00" "Missa" 0 =
      (true, ⟨2, [⟨1, "2024-01-01", "19:00", "Missa", 0⟩], [], []⟩) := by
  rfl

/-- C6.  Deleting an event is one state transition that removes the event
and exactly its enrollments, touches nothing else, and afterwards
`listar_inscritos` for that event returns the empty list. -/
theorem excluir_missa_cascades (db : DB) (mid : Nat) :
    (excluir_missa db mid).1 = true ∧
    (∀ m : Missa, m ∈ (excluir_missa db mid).2.missas ↔ m ∈ db.missas ∧ m.id ≠ mid) ∧
    (∀ p : Nat × String,
      p ∈ (excluir_missa db mid).2.inscricoes ↔ p ∈ db.inscricoes ∧ p.1 ≠ mid) ∧
    listar_inscritos (excluir_missa db mid).2 mid = [] ∧
    (excluir_missa db mid).2.acolitos = db.acolitos ∧
    (excluir_missa db mid).2.next_id = db.next_id := by
  refine ⟨rfl, ?_, ?_, ?_, rfl, rfl⟩
  · intro m
    simp [excluir_missa, List.mem_filter]
  · intro p
    simp [excluir_missa, List.mem_filter]
  · have h : (excluir_missa db mid).2.inscricoes.filter (fun p => p.1 == mid) = [] := by
      simp only [excluir_missa, List.filter_filter]
      apply List.filter_eq_nil_iff.mpr
      intro p _
      by_cases hp : p.1 = mid <;> simp [hp]
    simp [listar_inscritos, h, sortBy]

/-- C8 (amended).  `cadastrar_acolito` fails exactly when the trimmed name
is already registered; otherwise it succeeds and appends the trimmed name —
which the function does not require to be non-empty. -/
theorem cadastrar_acolito_duplicate_iff (db : DB) (nome : String) :
    (cadastrar_acolito db nome = (false, db) ↔ pystrip nome ∈ db.acolitos) ∧
    (pystrip nome ∉ db.acolitos →
      cadastrar_acolito db nome =
        (true, { db with acolitos := db.acolitos ++ [pystrip nome] })) := by
  constructor
  · constructor
    · intro h
      by_contra hmem
      simp [cadastrar_acolito, hmem] at h
    · intro hmem
      simp [cadastrar_acolito, hmem]
  · intro hmem
    simp [cadastrar_acolito, hmem]

/-- C8, the non-emptiness part of the claim, is false: registering a
whitespace-only name succeeds and stores the empty string as the
volunteer's name. -/
theorem cadastrar_acolito_empty_name :
    cadastrar_acolito DB.empty "   " = (true, ⟨1, [], [], [""]⟩) := by
  decide

/-- C7.  When the event exists with a free seat and the volunteer is not
enrolled, enrolling succeeds, withdrawing then succeeds and restores the
exact previous state (hence the previous seat count), and a second
enrollment succeeds again. -/
theorem enroll_withdraw_roundtrip (db : DB) (mid : Nat) (nome : String) (m : Missa)
    (hfind : findMissa db mid = some m)
    (hfree : (vagasPreenchidas db mid : Int) < m.vagas_totais)
    (hnot : (mid, nome) ∉ db.inscricoes) :
    (inscrever_acolito db mid nome).1 = true ∧
    desinscrever_acolito (inscrever_acolito db mid nome).2 mid nome = (true, db) ∧
    vagasPreenchidas (desinscrever_acolito (inscrever_acolito db mid nome).2 mid nome).2 mid
      = vagasPreenchidas db mid ∧
    (inscrever_acolito
        (desinscrever_acolito (inscrever_acolito db mid nome).2 mid nome).2 mid nome).1
      = true := by
  have hins : inscrever_acolito db mid nome =
      (true, { db with inscricoes := db.inscricoes ++ [(mid, nome)] }) := by
    have hv : verificar_inscricao db mid nome = false := by
      simp [verificar_inscricao, hnot]
    simp [inscrever_acolito, hfind, hv, not_le.mpr hfree]
  have hfilter : db.inscricoes.filter (fun p => !(p.1 == mid && p.2 == nome))
      = db.inscricoes := by
    apply List.filter_eq_self.mpr
    intro p hp
    by_contra hc
    have hpair : p = (mid, nome) := by
      cases p with
      | mk a b =>
        simp only [Bool.not_eq_true', Bool.not_eq_false] at hc
        simp only [Bool.and_eq_true, beq_iff_eq] at hc
        simp [hc.1, hc.2]
    exact hnot (hpair ▸ hp)
  have hdes : desinscrever_acolito { db with inscricoes := db.inscricoes ++ [(mid, nome)] }
      mid nome = (true, db) := by
    unfold desinscrever_acolito
    simp only [List.filter_append, hfilter]
    have h1 : List.filter (fun p => !(p.1 == mid && p.2 == nome)) [(mid, nome)] = [] := by
      simp
    rw [h1, List.append_nil]
    simp
  refine ⟨by rw [hins], by rw [hins]; exact hdes, ?_, ?_⟩
  · rw [hins]
    rw [show (desinscrever_acolito { db with inscricoes := db.inscricoes ++ [(mid, nome)] }
          mid nome).2 = db from congrArg Prod.snd hdes]
  · rw [hins]
    rw [show (desinscrever_acolito { db with inscricoes := db.inscricoes ++ [(mid, nome)] }
          mid nome).2 = db from congrArg Prod.snd hdes]
    rw [hins]

theorem enroll_withdraw_roundtrip_witness :
    (inscrever_acolito exDB7 1 "Ana").1 = true ∧
    desinscrever_acolito (inscrever_acolito exDB7 1 "Ana").2 1 "Ana" = (true, exDB7) ∧
    vagasPreenchidas (desinscrever_acolito (inscrever_acolito exDB7 1 "Ana").2 1 "Ana").2 1
      = vagasPreenchidas exDB7 1 ∧
    (inscrever_acolito
        (desinscrever_acolito (inscrever_acolito exDB7 1 "Ana").2 1 "Ana").2 1 "Ana").1
      = true :=
  enroll_withdraw_roundtrip exDB7 1 "Ana" ⟨1, "2024-01-01", "10:00", "", 2⟩
    (by rfl) (by decide) (by decide)

/-!
## Lemmas about the scoring fold
-/

theorem pontua_of_none {data hora : String} (h : parseDateTime data hora = none)
    (agora : Nat) : pontua data hora agora = false := by
  simp [pontua, h]

theorem foldl_scan_eq (agora : Nat) :
    ∀ (dados : List (String × String × String)) (acc : List (String × Nat)),
      dados.foldl (fun acc r => if pontua r.2.1 r.2.2 agora then bump acc r.1 else acc) acc
        = (dados.filterMap
            (fun r => if pontua r.2.1 r.2.2 agora then some r.1 else none)).foldl bump acc
  | [], _ => rfl
  | r :: dados, acc => by
    by_cases h : pontua r.2.1 r.2.2 agora = true
    · simp only [List.foldl_cons, List.filterMap_cons, h, if_true]
      exact foldl_scan_eq agora dados (bump acc r.1)
    · simp only [List.foldl_cons, List.filterMap_cons, h, if_false]
      exact foldl_scan_eq agora dados acc

theorem obter_ranking_eq (db : DB) (agora : Nat) :
    obter_ranking db agora
      = sortBy keepPontosDesc ((completedNames db agora).foldl bump []) := by
  simp only [obter_ranking, completedNames, foldl_scan_eq]

theorem filterMap_eq_filterMap_filter {α β : Type _} {F : α → Option β} {P : α → Bool}
    (h : ∀ a, P a = false → F a = none) :
    ∀ l : List α, l.filterMap F = (l.filter P).filterMap F
  | [] => rfl
  | a :: l => by
    by_cases hp : P a = true
    · simp only [List.filterMap_cons, List.filter_cons, hp, if_true]
      rw [filterMap_eq_filterMap_filter h l]
    · have hfa : F a = none := h a (Bool.not_eq_true _ ▸ Bool.of_not_eq_true hp)
      simp only [List.filterMap_cons, List.filter_cons, hp, if_false, hfa]
      exact filterMap_eq_filterMap_filter h l

/-- C9.  When an event's stored date/time does not parse, the ranking is
computed exactly as if that event's enrollments were absent: they are
skipped without an error and without disturbing other events' scores. -/
theorem ranking_skips_unparseable (db : DB) (mid : Nat) (m : Missa) (agora : Nat)
    (hfind : findMissa db mid = some m)
    (hbad : parseDateTime m.data m.hora = none) :
    obter_ranking db agora =
      obter_ranking
        { db with inscricoes := db.inscricoes.filter (fun p => !(p.1 == mid)) } agora := by
  have hnames : completedNames db agora =
      completedNames
        { db with inscricoes := db.inscricoes.filter (fun p => !(p.1 == mid)) } agora := by
    unfold completedNames scanRows
    rw [List.filterMap_filterMap, List.filterMap_filterMap]
    exact filterMap_eq_filterMap_filter
      (fun p hp => by
        have hpmid : p.1 = mid := by
          have := Bool.of_not_eq_true (Bool.not_eq_true _ ▸ hp)
          simpa using this
        have hfind2 : findMissa db p.1 = some m := hpmid ▸ hfind
        simp [hfind2, pontua_of_none hbad]) db.inscricoes
  rw [obter_ranking_eq, obter_ranking_eq, hnames]

theorem ranking_skips_unparseable_witness :
    obter_ranking exDB9 (minutesOf 2024 6 1 0 0) =
      obter_ranking
        { exDB9 with inscricoes := exDB9.inscricoes.filter (fun p => !(p.1 == 1)) }
        (minutesOf 2024 6 1 0 0) :=
  ranking_skips_unparseable exDB9 1 ⟨1, "baddate", "10:00", "", 5⟩
    (minutesOf 2024 6 1 0 0) (by rfl) (by rfl)

/-!
## Lemmas about the tally
-/

theorem mem_keys_of_any {acc : List (String × Nat)} {x : String}
    (h : acc.any (fun q => q.1 == x) = true) : x ∈ acc.map Prod.fst := by
  rcases List.any_eq_true.mp h with ⟨q, hq, hqx⟩
  have hx : q.1 = x := by simpa using hqx
  exact hx ▸ List.mem_map_of_mem Prod.fst hq

theorem any_of_mem_keys {acc : List (String × Nat)} {x : String}
    (h : x ∈ acc.map Prod.fst) : acc.any (fun q => q.1 == x) = true := by
  rcases List.mem_map.mp h with ⟨q, hq, hqx⟩
  exact List.any_eq_true.mpr ⟨q, hq, by simp [hqx]⟩

theorem tallyInv_bump {pre : List String} {acc : List (String × Nat)} (x : String)
    (h : TallyInv pre acc) : TallyInv (pre ++ [x]) (bump acc x) := by
  obtain ⟨hcount, hmem, hnodup, hpair⟩ := h
  by_cases hx : acc.any (fun q => q.1 == x) = true
  · have hxpre : x ∈ pre := (hmem x).mp (mem_keys_of_any hx)
    have hbump : bump acc x
        = acc.map (fun q => if q.1 == x then (q.1, q.2 + 1) else q) := by
      simp [bump, hx]
    have hkeys : (acc.map (fun q => if q.1 == x then (q.1, q.2 + 1) else q)).map Prod.fst
        = acc.map Prod.fst := by
      rw [List.map_map]
      apply List.map_congr_left
      intro q _
      by_cases hq : q.1 = x <;> simp [hq]
    rw [hbump]
    refine ⟨?_, ?_, ?_, ?_⟩
    · intro q2 hq2
      rcases List.mem_map.mp hq2 with ⟨q, hq, rfl⟩
      have hc := hcount q hq
      by_cases hqx : q.1 = x
      · simp only [hqx, beq_self_eq_true, if_true]
        have hcapp : (pre ++ [x]).count x = pre.count x + 1 := by
          rw [List.count_append]
          simp
        refine ⟨?_, by omega⟩
        rw [hcapp]
        rw [hqx] at hc
        omega
      · have hne : (q.1 == x) = false := beq_eq_false_iff_ne.mpr hqx
        simp only [hne, Bool.false_eq_true, if_false]
        have hcapp : (pre ++ [x]).count q.1 = pre.count q.1 := by
          rw [List.count_append]
          have h0 : [x].count q.1 = 0 := by
            rw [List.count_eq_zero]
            simp [hqx]
          rw [h0, Nat.add_zero]
        rw [hcapp]
        exact hc
    · intro n
      rw [hkeys, hmem n]
      simp only [List.mem_append, List.mem_singleton]
      constructor
      · exact Or.inl
      · rintro (h2 | rfl)
        · exact h2
        · exact hxpre
    · rw [hkeys]; exact hnodup
    · rw [List.pairwise_map]
      refine hpair.imp_of_mem ?_
      intro a b ha hb hab
      have hka : a.1 ∈ pre := (hmem a.1).mp (List.mem_map_of_mem Prod.fst ha)
      have hkb : b.1 ∈ pre := (hmem b.1).mp (List.mem_map_of_mem Prod.fst hb)
      have h1 : (if a.1 == x then (a.1, a.2 + 1) else a).1 = a.1 := by
        by_cases h2 : a.1 == x <;> simp [h2]
      have h2 : (if b.1 == x then (b.1, b.2 + 1) else b).1 = b.1 := by
        by_cases h3 : b.1 == x <;> simp [h3]
      rw [h1, h2, List.indexOf_append_of_mem hka, List.indexOf_append_of_mem hkb]
      exact hab
  · have hxkeys : x ∉ acc.map Prod.fst := fun h2 => hx (any_of_mem_keys h2)
    have hxpre : x ∉ pre := fun h2 => hxkeys ((hmem x).mpr h2)
    have hbump : bump acc x = acc ++ [(x, 1)] := by
      simp only [bump, hx, Bool.false_eq_true, if_false]
    rw [hbump]
    refine ⟨?_, ?_, ?_, ?_⟩
    · intro q hq
      rcases List.mem_append.mp hq with hq2 | hq2
      · have hqx : q.1 ≠ x := fun h2 => hxkeys (h2 ▸ List.mem_map_of_mem Prod.fst hq2)
        have hcapp : (pre ++ [x]).count q.1 = pre.count q.1 := by
          rw [List.count_append]
          have h0 : [x].count q.1 = 0 := by
            rw [List.count_eq_zero]
            simp [hqx]
          rw [h0, Nat.add_zero]
        rw [hcapp]
        exact hcount q hq2
      · have hq3 : q = (x, 1) := by simpa using hq2
        subst hq3
        have h0 : pre.count x = 0 := List.count_eq_zero.mpr hxpre
        constructor
        · rw [List.count_append, h0]
          simp
        · exact Nat.one_pos
    · intro n
      rw [List.map_append]
      simp only [List.mem_append, List.mem_singleton, List.map_cons, List.map_nil]
      rw [hmem n]
    · rw [List.map_append]
      rw [List.nodup_append]
      refine ⟨hnodup, by simp, ?_⟩
      intro a ha hb
      have : a = x := by simpa using hb
      exact hxkeys (this ▸ ha)
    · rw [List.pairwise_append]
      refine ⟨?_, by simp, ?_⟩
      · refine hpair.imp_of_mem ?_
        intro a b ha hb hab
        have hka : a.1 ∈ pre := (hmem a.1).mp (List.mem_map_of_mem Prod.fst ha)
        have hkb : b.1 ∈ pre := (hmem b.1).mp (List.mem_map_of_mem Prod.fst hb)
        rw [List.indexOf_append_of_mem hka, List.indexOf_append_of_mem hkb]
        exact hab
      · intro a ha b hb
        have hbx : b = (x, 1) := by simpa using hb
        subst hbx
        have hka : a.1 ∈ pre := (hmem a.1).mp (List.mem_map_of_mem Prod.fst ha)
        rw [List.indexOf_append_of_mem hka, List.indexOf_append_of_not_mem hxpre]
        simp only [List.indexOf_cons_self, Nat.add_zero]
        exact List.indexOf_lt_length.mpr hka

theorem tallyInv_foldl :
    ∀ (l pre : List String) (acc : List (String × Nat)),
      TallyInv pre acc → TallyInv (pre ++ l) (l.foldl bump acc)
  | [], pre, acc, h => by simpa using h
  | x :: l, pre, acc, h => by
    have h2 := tallyInv_foldl l (pre ++ [x]) (bump acc x) (tallyInv_bump x h)
    rw [List.append_assoc] at h2
    simpa using h2

theorem tallyInv_nil : TallyInv [] [] := by
  refine ⟨by simp, by simp, by simp, List.Pairwise.nil⟩

theorem tallyInv_full (l : List String) : TallyInv l (l.foldl bump []) := by
  have h := tallyInv_foldl l [] [] tallyInv_nil
  simpa using h

theorem keepPontosDesc_total (a b : String × Nat) :
    keepPontosDesc a b = true ∨ keepPontosDesc b a = true := by
  rcases Nat.le_total b.2 a.2 with h | h
  · exact Or.inl (by simp [keepPontosDesc, h])
  · exact Or.inr (by simp [keepPontosDesc, h])

theorem keepPontosDesc_trans (a b c : String × Nat)
    (h1 : keepPontosDesc a b = true) (h2 : keepPontosDesc b c = true) :
    keepPontosDesc a c = true := by
  simp only [keepPontosDesc, decide_eq_true_eq] at h1 h2 ⊢
  omega

/-- C10.  A name appears on the leaderboard exactly when it has at least
one enrollment in a completed event, and every listed entry carries a
positive point count: zero-point volunteers never appear. -/
theorem ranking_only_positive_scores (db : DB) (agora : Nat) :
    (∀ n : String,
      n ∈ (obter_ranking db agora).map Prod.fst ↔ n ∈ completedNames db agora) ∧
    (∀ q ∈ obter_ranking db agora, 0 < q.2) := by
  have hinv := tallyInv_full (completedNames db agora)
  have hperm : (obter_ranking db agora).Perm ((completedNames db agora).foldl bump []) := by
    rw [obter_ranking_eq]
    exact sortBy_perm _ _
  constructor
  · intro n
    rw [(hperm.map Prod.fst).mem_iff]
    exact hinv.2.1 n
  · intro q hq
    exact (hinv.1 q (hperm.subset hq)).2

/-- C4 (amended).  Each leaderboard entry's points equal the number of the
volunteer's completed enrollments in the scan; entries are sorted by
points descending; and ties are broken by first-encountered order in the
enrollment scan — whose order is the stored order of the enrollments
relation (the query has no `ORDER BY`), not an event-id ordering. -/
theorem ranking_points_sorted_stable (db : DB) (agora : Nat) :
    (∀ q ∈ obter_ranking db agora, q.2 = (completedNames db agora).count q.1) ∧
    (obter_ranking db agora).Pairwise (fun a b =>
      b.2 ≤ a.2 ∧ (a.2 = b.2 →
        (completedNames db agora).indexOf a.1 < (completedNames db agora).indexOf b.1)) := by
  have hinv := tallyInv_full (completedNames db agora)
  have hperm : (obter_ranking db agora).Perm ((completedNames db agora).foldl bump []) := by
    rw [obter_ranking_eq]
    exact sortBy_perm _ _
  constructor
  · intro q hq
    exact (hinv.1 q (hperm.subset hq)).1
  · rw [obter_ranking_eq]
    have hp := @sortBy_pairwise (String × Nat) keepPontosDesc
      (fun a b => (completedNames db agora).indexOf a.1
        < (completedNames db agora).indexOf b.1)
      keepPontosDesc_total keepPontosDesc_trans _ hinv.2.2.2
    refine hp.imp ?_
    intro a b h
    have h1 : b.2 ≤ a.2 := by
      have := h.1
      simpa [keepPontosDesc] using this
    refine ⟨h1, fun heq => h.2 ?_⟩
    simp [keepPontosDesc, heq]

/-- C4, the claim as stated, is false at this input: both volunteers score
one point, and the scan order of the stored enrollments puts A (event 2)
before B (event 1); an event-id-ordered scan, as the claim asserts, would
list B first. -/
theorem ranking_tiebreak_not_event_id_order :
    obter_ranking exDB4 (minutesOf 2030 1 1 0 0) = [("A", 1), ("B", 1)] ∧
    ranking_spec_eventIdScan exDB4 (minutesOf 2030 1 1 0 0) = [("B", 1), ("A", 1)] ∧
    obter_ranking exDB4 (minutesOf 2030 1 1 0 0) ≠
      ranking_spec_eventIdScan exDB4 (minutesOf 2030 1 1 0 0) := by
  refine ⟨by decide, by decide, by decide⟩

theorem keepDataHoraDesc_total (a b : Missa) :
    keepDataHoraDesc a b = true ∨ keepDataHoraDesc b a = true := by
  simp only [keepDataHoraDesc, decide_eq_true_eq]
  rcases lt_trichotomy a.data b.data with h | h | h
  · exact Or.inr (Or.inl h)
  · rcases le_total b.hora a.hora with h2 | h2
    · exact Or.inl (Or.inr ⟨h.symm, h2⟩)
    · exact Or.inr (Or.inr ⟨h, h2⟩)
  · exact Or.inl (Or.inl h)

theorem keepDataHoraDesc_trans (a b c : Missa)
    (h1 : keepDataHoraDesc a b = true) (h2 : keepDataHoraDesc b c = true) :
    keepDataHoraDesc a c = true := by
  simp only [keepDataHoraDesc, decide_eq_true_eq] at h1 h2 ⊢
  rcases h1 with h1 | ⟨h1e, h1h⟩
  · rcases h2 with h2 | ⟨h2e, h2h⟩
    · exact Or.inl (h2.trans h1)
    · exact Or.inl (h2e ▸ h1)
  · rcases h2 with h2 | ⟨h2e, h2h⟩
    · exact Or.inl (lt_of_lt_of_le h2 (le_of_eq h1e))
    · exact Or.inr ⟨h2e.trans h1e, h2h.trans h1h⟩

/-- C5 (amended).  `listar_todas_missas` returns every event, ordered by
(date, time) descending, each annotated with its filled-seat count at
query time; the returned rows carry no list of enrolled names. -/
theorem listar_todas_missas_ordered_annotated (db : DB) :
    ((listar_todas_missas db).map Prod.fst).Perm db.missas ∧
    (∀ q ∈ listar_todas_missas db, q.2 = vagasPreenchidas db q.1.id) ∧
    (listar_todas_missas db).Pairwise (fun a b =>
      b.1.data < a.1.data ∨ (b.1.data = a.1.data ∧ b.1.hora ≤ a.1.hora)) := by
  refine ⟨?_, ?_, ?_⟩
  · unfold listar_todas_missas
    rw [List.map_map]
    have h : (Prod.fst ∘ fun m : Missa => (m, vagasPreenchidas db m.id)) = id :=
      funext fun m => rfl
    rw [h, List.map_id]
    exact sortBy_perm _ _
  · intro q hq
    rcases List.mem_map.mp hq with ⟨m, _, rfl⟩
    rfl
  · unfold listar_todas_missas
    rw [List.pairwise_map]
    have hs := sortBy_sorted keepDataHoraDesc_total keepDataHoraDesc_trans db.missas
    refine hs.imp ?_
    intro a b h
    simpa [keepDataHoraDesc] using h

/-- C5, the names part of the claim, is false: two states whose only
difference is which volunteer is enrolled produce identical
`listar_todas_missas` output, so that output cannot carry the enrolled
names (which `listar_inscritos` shows to differ). -/
theorem listar_todas_missas_lacks_names :
    listar_todas_missas exDB5a = listar_todas_missas exDB5b ∧
    listar_inscritos exDB5a 1 = ["Ana"] ∧
    listar_inscritos exDB5b 1 = ["Bia"] ∧
    exDB5a.inscricoes ≠ exDB5b.inscricoes := by
  refine ⟨by decide, by decide, by decide, by decide⟩

/-!
## Lemmas about the reachability invariant
-/

theorem vagas_filter_le (l : List (Nat × String)) (P : Nat × String → Bool) (mid : Nat) :
    ((l.filter P).filter (fun p => p.1 == mid)).length
      ≤ (l.filter (fun p => p.1 == mid)).length :=
  ((List.filter_sublist l).filter _).length_le

theorem missa_id_unique {missas : List Missa} (hnodup : (missas.map Missa.id).Nodup)
    {m m2 : Missa} (hm : m ∈ missas) (hm2 : m2 ∈ missas) (h : m.id = m2.id) : m = m2 :=
  List.inj_on_of_nodup_map hnodup hm hm2 h

theorem findMissa_mem {db : DB} {mid : Nat} {m : Missa}
    (h : findMissa db mid = some m) : m ∈ db.missas :=
  List.mem_of_find?_eq_some h

theorem findMissa_id {db : DB} {mid : Nat} {m : Missa}
    (h : findMissa db mid = some m) : m.id = mid := by
  have h2 := List.find?_some h
  simpa using h2

theorem inscrever_success_iff (db : DB) (mid : Nat) (nome : String) :
    (inscrever_acolito db mid nome).1 = true ↔
      ∃ m : Missa, findMissa db mid = some m ∧
        (vagasPreenchidas db mid : Int) < m.vagas_totais ∧
        (mid, nome) ∉ db.inscricoes := by
  cases hf : findMissa db mid with
  | none =>
    simp only [inscrever_acolito, hf]
    simp
  | some m =>
    simp only [inscrever_acolito, hf]
    by_cases hle : m.vagas_totais ≤ (vagasPreenchidas db mid : Int)
    · rw [if_pos hle]
      constructor
      · intro h
        exact absurd h (by simp)
      · rintro ⟨m2, hm2, hlt, -⟩
        obtain rfl : m = m2 := by simpa using hm2
        exact absurd hlt (not_lt.mpr hle)
    · rw [if_neg hle]
      by_cases hv : verificar_inscricao db mid nome = true
      · rw [if_pos hv]
        have hmem : (mid, nome) ∈ db.inscricoes := by
          simpa [verificar_inscricao] using hv
        constructor
        · intro h
          exact absurd h (by simp)
        · rintro ⟨m2, -, -, hnot⟩
          exact absurd hmem hnot
      · rw [if_neg hv]
        have hnot : (mid, nome) ∉ db.inscricoes := by
          simpa [verificar_inscricao] using hv
        constructor
        · intro _
          exact ⟨m, rfl, not_le.mp hle, hnot⟩
        · intro _
          rfl

theorem dbinv_cadastrar (db : DB) (d h ds : String) (v : Int) (hinv : DBInv db) :
    DBInv { db with
              missas := db.missas ++ [⟨db.next_id, d, h, ds, v⟩],
              next_id := db.next_id + 1 } := by
  obtain ⟨hnodup, hfresh, hfk, hcap⟩ := hinv
  refine ⟨?_, ?_, ?_, ?_⟩
  · show ((db.missas ++ [(⟨db.next_id, d, h, ds, v⟩ : Missa)]).map Missa.id).Nodup
    rw [List.map_append, List.nodup_append]
    refine ⟨hnodup, by simp, ?_⟩
    intro a ha hb
    have ha2 : a = db.next_id := by simpa using hb
    rcases List.mem_map.mp ha with ⟨m, hm, rfl⟩
    exact absurd (ha2 ▸ hfresh m hm) (lt_irrefl _)
  · intro m hm
    rcases List.mem_append.mp hm with hm2 | hm2
    · exact Nat.lt_succ_of_lt (hfresh m hm2)
    · have : m = ⟨db.next_id, d, h, ds, v⟩ := by simpa using hm2
      rw [this]
      exact Nat.lt_succ_self _
  · intro p hp
    rcases hfk p hp with ⟨m, hm, hid⟩
    exact ⟨m, List.mem_append_left _ hm, hid⟩
  · intro m hm
    rcases List.mem_append.mp hm with hm2 | hm2
    · exact hcap m hm2
    · have hm3 : m = ⟨db.next_id, d, h, ds, v⟩ := by simpa using hm2
      have hempty : db.inscricoes.filter (fun p => p.1 == m.id) = [] := by
        rw [List.filter_eq_nil_iff]
        intro p hp
        rcases hfk p hp with ⟨m2, hm4, hid⟩
        have hlt : p.1 < db.next_id := hid ▸ hfresh m2 hm4
        have : m.id = db.next_id := by rw [hm3]
        simp only [beq_iff_eq, this]
        omega
      show (((db.inscricoes.filter (fun p => p.1 == m.id)).length : Int))
          ≤ max m.vagas_totais 0
      rw [hempty]
      simp

theorem dbinv_filter_inscricoes (db : DB) (P : Nat × String → Bool) (hinv : DBInv db) :
    DBInv { db with inscricoes := db.inscricoes.filter P } := by
  obtain ⟨hnodup, hfresh, hfk, hcap⟩ := hinv
  refine ⟨hnodup, hfresh, ?_, ?_⟩
  · intro p hp
    exact hfk p (List.mem_of_mem_filter hp)
  · intro m hm
    calc (vagasPreenchidas { db with inscricoes := db.inscricoes.filter P } m.id : Int)
        ≤ (vagasPreenchidas db m.id : Int) :=
          Int.ofNat_le.mpr (vagas_filter_le db.inscricoes P m.id)
      _ ≤ max m.vagas_totais 0 := hcap m hm

theorem dbinv_excluir (db : DB) (mid : Nat) (hinv : DBInv db) :
    DBInv { db with
              missas := db.missas.filter (fun m => !(m.id == mid)),
              inscricoes := db.inscricoes.filter (fun p => !(p.1 == mid)) } := by
  obtain ⟨hnodup, hfresh, hfk, hcap⟩ := hinv
  refine ⟨?_, ?_, ?_, ?_⟩
  · show ((db.missas.filter (fun m => !(m.id == mid))).map Missa.id).Nodup
    exact List.Nodup.sublist ((List.filter_sublist db.missas).map Missa.id) hnodup
  · intro m hm
    exact hfresh m (List.mem_of_mem_filter hm)
  · intro p hp
    obtain ⟨hp2, hP⟩ := List.mem_filter.mp hp
    have hne : p.1 ≠ mid := by simpa using hP
    rcases hfk p hp2 with ⟨m, hm, hid⟩
    refine ⟨m, List.mem_filter.mpr ⟨hm, ?_⟩, hid⟩
    simp [hid, hne]
  · intro m hm
    have hm2 : m ∈ db.missas := List.mem_of_mem_filter hm
    calc ((((db.inscricoes.filter (fun p => !(p.1 == mid))).filter
            (fun p => p.1 == m.id)).length : Int))
        ≤ ((db.inscricoes.filter (fun p => p.1 == m.id)).length : Int) :=
          Int.ofNat_le.mpr (vagas_filter_le db.inscricoes _ m.id)
      _ ≤ max m.vagas_totais 0 := hcap m hm2

theorem dbinv_inscrever (db : DB) (mid : Nat) (nome : String) (hinv : DBInv db) :
    DBInv (inscrever_acolito db mid nome).2 := by
  cases hf : findMissa db mid with
  | none =>
    simp only [inscrever_acolito, hf]
    exact hinv
  | some m0 =>
    simp only [inscrever_acolito, hf]
    by_cases hle : m0.vagas_totais ≤ (vagasPreenchidas db mid : Int)
    · rw [if_pos hle]
      exact hinv
    · rw [if_neg hle]
      by_cases hv : verificar_inscricao db mid nome = true
      · rw [if_pos hv]
        exact hinv
      · rw [if_neg hv]
        obtain ⟨hnodup, hfresh, hfk, hcap⟩ := hinv
        have hm0 : m0 ∈ db.missas := findMissa_mem hf
        have hm0id : m0.id = mid := findMissa_id hf
        refine ⟨hnodup, hfresh, ?_, ?_⟩
        · intro p hp
          rcases List.mem_append.mp hp with hp2 | hp2
          · exact hfk p hp2
          · have : p = (mid, nome) := by simpa using hp2
            rw [this]
            exact ⟨m0, hm0, hm0id⟩
        · intro m hm
          show ((((db.inscricoes ++ [(mid, nome)]).filter
              (fun p => p.1 == m.id)).length : Int)) ≤ max m.vagas_totais 0
          rw [List.filter_append, List.length_append]
          by_cases hid : m.id = mid
          · have hmeq : m = m0 := missa_id_unique hnodup hm hm0 (hid.trans hm0id.symm)
            have h1 : ([(mid, nome)].filter (fun p => p.1 == m.id)).length = 1 := by
              simp [hid]
            rw [h1]
            have hlt : (vagasPreenchidas db mid : Int) < m0.vagas_totais := not_le.mp hle
            have hcnt : (db.inscricoes.filter (fun p => p.1 == m.id)).length
                = vagasPreenchidas db mid := by
              rw [hid]
              rfl
            rw [hcnt, hmeq]
            have : (vagasPreenchidas db mid : Int) + 1 ≤ m0.vagas_totais := by omega
            push_cast
            exact le_trans this (le_max_left _ _)
          · have h1 : ([(mid, nome)].filter (fun p => p.1 == m.id)).length = 0 := by
              simp [Ne.symm hid]
            rw [h1, Nat.add_zero]
            exact hcap m hm

theorem dbinv_applyOp (db : DB) (op : Op) (hinv : DBInv db) : DBInv (applyOp db op) := by
  cases op with
  | cadastrarMissa d h ds v => exact dbinv_cadastrar db d h ds v hinv
  | inscrever mid nome => exact dbinv_inscrever db mid nome hinv
  | desinscrever mid nome =>
    show DBInv { db with
      inscricoes := db.inscricoes.filter (fun p => !(p.1 == mid && p.2 == nome)) }
    exact dbinv_filter_inscricoes db _ hinv
  | removerInscricao mid nome =>
    show DBInv { db with
      inscricoes := db.inscricoes.filter (fun p => !(p.1 == mid && p.2 == nome)) }
    exact dbinv_filter_inscricoes db _ hinv
  | excluirMissa mid => exact dbinv_excluir db mid hinv
  | cadastrarAcolito nome =>
    by_cases hc : pystrip nome ∈ db.acolitos
    · have h2 : (cadastrar_acolito db nome).2 = db := by
        simp [cadastrar_acolito, hc]
      show DBInv (cadastrar_acolito db nome).2
      rw [h2]
      exact hinv
    · have h2 : (cadastrar_acolito db nome).2
          = { db with acolitos := db.acolitos ++ [pystrip nome] } := by
        simp [cadastrar_acolito, hc]
      show DBInv (cadastrar_acolito db nome).2
      rw [h2]
      obtain ⟨hnodup, hfresh, hfk, hcap⟩ := hinv
      exact ⟨hnodup, hfresh, hfk, hcap⟩
  | removerAcolito nome =>
    obtain ⟨hnodup, hfresh, hfk, hcap⟩ := hinv
    exact ⟨hnodup, hfresh, hfk, hcap⟩

theorem dbinv_empty : DBInv DB.empty := by
  refine ⟨by simp [DB.empty], by simp [DB.empty], by simp [DB.empty], by simp [DB.empty]⟩

theorem dbinv_foldl : ∀ (ops : List Op) (db : DB),
    DBInv db → DBInv (ops.foldl applyOp db)
  | [], _, h => h
  | op :: ops, db, h => dbinv_foldl ops (applyOp db op) (dbinv_applyOp db op h)

theorem dbinv_runOps (ops : List Op) : DBInv (runOps ops) :=
  dbinv_foldl ops DB.empty dbinv_empty

/-- C1 (amended).  Enrolling succeeds exactly when the event exists, its
filled count is strictly below its capacity, and the pair is not yet
enrolled; consequently, after any sequence of operations from the fresh
state, no event's enrollment count exceeds `max capacity 0` — and it can
exceed a negative capacity only because event creation does not prevent
negative capacities. -/
theorem inscrever_success_iff_and_capacity_invariant :
    (∀ (db : DB) (mid : Nat) (nome : String),
      (inscrever_acolito db mid nome).1 = true ↔
        ∃ m : Missa, findMissa db mid = some m ∧
          (vagasPreenchidas db mid : Int) < m.vagas_totais ∧
          (mid, nome) ∉ db.inscricoes) ∧
    (∀ ops : List Op, ∀ m ∈ (runOps ops).missas,
      (vagasPreenchidas (runOps ops) m.id : Int) ≤ max m.vagas_totais 0) := by
  constructor
  · exact inscrever_success_iff
  · intro ops m hm
    exact (dbinv_runOps ops).2.2.2 m hm

/-- C1, the invariant exactly as the claim states it, is false: one
creation call with capacity −1 (which nothing rejects) yields an event
whose enrollment count 0 already exceeds its capacity. -/
theorem capacity_invariant_fails_for_negative_capacity :
    ¬ (∀ m ∈ (runOps [Op.cadastrarMissa "2024-01-01" "10:00" "Missa" (-1)]).missas,
        (vagasPreenchidas (runOps [Op.cadastrarMissa "2024-01-01" "10:00" "Missa" (-1)])
            m.id : Int) ≤ m.vagas_totais) := by
  decide

end Acolitos
